import Mathlib

/-!
Verification of the blockchain-based storage driver.

This file gives a shallow embedding of the core of the repository:

* `myfuse/blockchain.py` — the `Block` dataclass and the `Blockchain` class
  (`calculate_hash`, `proof_of_work`, `add_block`, `get_file_blocks`,
  `validate_chain`, `detect_tampering`);
* `myfuse/ipfs_client.py` — `IPFSClient.verify_chunk`; the store itself
  (`upload_chunk` / `download_chunk`) is an external network service and is
  modelled as abstract `put`/`get` functions returning `Option`, mirroring the
  Python methods that return `None` on failure;
* `myfuse/main.py` — the chunk split/join loops and the `read`/`write`
  methods of `BlockchainFUSE`.

SHA-256 itself (`hashlib.sha256(...).hexdigest()`) is an external primitive;
it is modelled as an abstract parameter `sha : String → String` for block
hashing and `shaB : List Nat → String` for chunk-byte hashing.  Every theorem
below is proved for all such functions, which is strictly stronger than for
the concrete digest.

Bytes are modelled as `List Nat`.  Exceptions are modelled with `Option` /
`Except`: a Python method whose body raises corresponds to an `error` result.
The `try/except Exception` wrappers in `BlockchainFUSE.read`/`write` catch
every exception raised in the body — including the `FuseOSError`s the body
itself raises — and re-raise `FuseOSError(errno.EIO)`; the adapter-level
`read`/`write` functions below reproduce exactly that mapping.
-/

namespace MyFuse

/-- Configuration constants from `myfuse/config.py`. -/
def DIFFICULTY : Nat := 3

/-- Maximum nonce value for proof of work (`myfuse/config.py`). -/
def MAX_NONCE : Nat := 1000000

/-- Chunk size in bytes (`myfuse/config.py`). -/
def CHUNK_SIZE : Nat := 1024

/-- The `Block` dataclass of `myfuse/blockchain.py`. -/
structure Block where
  index : Nat
  timestamp : String
  filename : String
  file_size : Nat
  chunk_hash : String
  ipfs_hash : String
  previous_hash : String
  nonce : Nat := 0
  hash : String := ""
deriving DecidableEq

instance : Inhabited Block :=
  ⟨{ index := 0, timestamp := "", filename := "", file_size := 0,
     chunk_hash := "", ipfs_hash := "", previous_hash := "" }⟩

/-- The concatenation hashed by `Blockchain.calculate_hash`: every field of
the block except `hash` itself, integers in decimal, no separators. -/
def block_string (b : Block) : String :=
  toString b.index ++ b.timestamp ++ b.filename ++ toString b.file_size ++
    b.chunk_hash ++ b.ipfs_hash ++ b.previous_hash ++ toString b.nonce

/-- `Blockchain.calculate_hash`, parameterised by the digest function `sha`
standing for `hashlib.sha256(...).hexdigest()`. -/
def calculate_hash (sha : String → String) (b : Block) : String :=
  sha (block_string b)

/-- The proof-of-work target string `"0" * DIFFICULTY`. -/
def target (difficulty : Nat) : String :=
  String.mk (List.replicate difficulty '0')

/-- Python's `s.startswith(p)`, expressed on the character lists of the two
strings so that it evaluates by kernel reduction. -/
def startswith (s p : String) : Bool :=
  p.data.isPrefixOf s.data

/-- The per-nonce test inside the `proof_of_work` loop: set the nonce field
and check whether the recomputed hash starts with the target. -/
def powPred (sha : String → String) (difficulty : Nat) (b : Block) (n : Nat) : Bool :=
  startswith (calculate_hash sha { b with nonce := n }) (target difficulty)

/-- The `for nonce in range(MAX_NONCE)` search of `Blockchain.proof_of_work`,
written with explicit fuel: try `fuel` consecutive nonces starting at `n`,
returning the first one accepted by `p`, or `none` when the range is
exhausted. -/
def pow_loop (p : Nat → Bool) : Nat → Nat → Option Nat
  | 0, _ => none
  | fuel + 1, n => if p n then some n else pow_loop p fuel (n + 1)

/-- `Blockchain.proof_of_work`: first nonce in `[0, maxNonce)` whose hash
meets the difficulty target, and `0` when the search is exhausted. -/
def proof_of_work (sha : String → String) (difficulty maxNonce : Nat) (b : Block) : Nat :=
  (pow_loop (powPred sha difficulty b) maxNonce 0).getD 0

/-- `Blockchain.get_latest_block`: `self.chain[-1] if self.chain else None`. -/
def get_latest_block (chain : List Block) : Option Block :=
  chain.getLast?

/-- `Blockchain.add_block`, parameterised by the digest `sha` and the
timestamp string `ts` produced by `datetime.datetime.now().isoformat()`.
Returns the extended chain together with the new block.  On an empty chain
the Python code dereferences `None` and raises; this is the `none` case. -/
def add_block (sha : String → String) (chain : List Block)
    (filename : String) (file_size : Nat) (chunk_hash ipfs_hash : String)
    (ts : String) : Option (List Block × Block) :=
  match get_latest_block chain with
  | none => none
  | some previous_block =>
    let b0 : Block :=
      { index := chain.length, timestamp := ts, filename := filename,
        file_size := file_size, chunk_hash := chunk_hash,
        ipfs_hash := ipfs_hash, previous_hash := previous_block.hash }
    let b1 : Block := { b0 with nonce := proof_of_work sha DIFFICULTY MAX_NONCE b0 }
    let b2 : Block := { b1 with hash := calculate_hash sha b1 }
    some (chain ++ [b2], b2)

/-- `Blockchain.get_file_blocks`: every block of the chain whose `filename`
field equals the argument, in chain order. -/
def get_file_blocks (chain : List Block) (filename : String) : List Block :=
  chain.filter (fun b => b.filename == filename)

/-- The body of one iteration of `Blockchain.validate_chain` at position
`i ≥ 1`: stored hash equals the recomputation, `previous_hash` links to the
prior block, and the hash meets the proof-of-work prefix. -/
def check_at (sha : String → String) (difficulty : Nat) (chain : List Block) (i : Nat) : Bool :=
  let current_block := chain.getD i default
  let previous_block := chain.getD (i - 1) default
  (current_block.hash == calculate_hash sha current_block) &&
    (current_block.previous_hash == previous_block.hash) &&
    startswith current_block.hash (target difficulty)

/-- `Blockchain.validate_chain`: the loop `for i in range(1, len(chain))`
returning `False` on the first failed check. -/
def validate_chain (sha : String → String) (difficulty : Nat) (chain : List Block) : Bool :=
  (List.range' 1 (chain.length - 1)).all (check_at sha difficulty chain)

/-- `Blockchain.detect_tampering`: indices of the file's blocks whose stored
hash no longer matches its recomputation. -/
def detect_tampering (sha : String → String) (chain : List Block) (filename : String) :
    List Nat :=
  ((get_file_blocks chain filename).filter
      (fun b => !(b.hash == calculate_hash sha b))).map (fun b => b.index)

/-- `IPFSClient.verify_chunk`: compare the digest of the downloaded bytes
with the expected chunk hash. -/
def verify_chunk (shaB : List Nat → String) (chunk_data : List Nat)
    (expected_hash : String) : Bool :=
  shaB chunk_data == expected_hash

/-- Fuelled worker for the chunking loop of `BlockchainFUSE.write`
(`for i in range(0, len(data), CHUNK_SIZE): chunks.append(data[i:i+CHUNK_SIZE])`).
Each step peels `data[:n]` off the front; the fuel is an upper bound on the
number of remaining bytes, so `data.length` steps always suffice. -/
def splitGo (n : Nat) : Nat → List Nat → List (List Nat)
  | 0, _ => []
  | _ + 1, [] => []
  | fuel + 1, a :: rest =>
    (a :: rest).take n :: splitGo n fuel ((a :: rest).drop n)

/-- The chunk split of `BlockchainFUSE.write`.  A zero chunk size makes the
Python `range` raise `ValueError`; that case is outside the modelled domain
and mapped to `[]`. -/
def splitChunks (n : Nat) (data : List Nat) : List (List Nat) :=
  if n = 0 then [] else splitGo n data.length data

/-- The reassembly `file_data = b''` / `file_data += chunk_data` of
`BlockchainFUSE.read`, as a left fold of concatenation. -/
def joinChunks (chunks : List (List Nat)) : List Nat :=
  chunks.foldl (fun acc c => acc ++ c) []

/-- Stable insertion used to model `file_blocks.sort(key=lambda b: b.index)`:
an element is placed before the first strictly larger key, and after equal
keys already present, which is exactly the stable-sort order. -/
def insertByIndex (b : Block) : List Block → List Block
  | [] => [b]
  | a :: rest =>
    if b.index ≤ a.index then b :: a :: rest else a :: insertByIndex b rest

/-- Stable sort by `index`, modelling Python's stable `list.sort` with key
`b.index`.  `foldr` inserts earlier list elements later, so they end up
before equal keys, as stability requires. -/
def sortByIndex (l : List Block) : List Block :=
  l.foldr insertByIndex []

/-- The distinct `raise` sites inside the body of `BlockchainFUSE.read`:
missing file (ENOENT at main.py:102), tampering detected (EIO at :111),
chunk download failure (EIO at :122), chunk integrity failure (EIO at :127).
These labels name which check aborted the read; the spec calls them
`NotFound`, `IntegrityViolation`, `FetchFailure` and `HashMismatch`. -/
inductive ReadErr where
  | notFound
  | tampered
  | fetchFailed
  | hashMismatch
deriving DecidableEq

/-- The `raise` sites inside the body of `BlockchainFUSE.write`: non-zero
offset (ENOSYS at main.py:150), chunk upload failure (EIO at :168), and the
`AttributeError` add_block raises on an empty chain.  The spec calls the
second `StoreFailure`. -/
inductive WriteErr where
  | notSupported
  | storeFailure
  | chainFailure
deriving DecidableEq

/-- Errno values observable through the FUSE adapter. -/
inductive FuseErr where
  | ENOENT
  | EIO
  | ENOSYS
  | EPERM
deriving DecidableEq

/-- The per-block download/verify/accumulate loop of `BlockchainFUSE.read`
(main.py:117-130), over the sorted block list.  `get` models
`ipfs_client.download_chunk` (`none` = failure). -/
def read_loop (get : String → Option (List Nat)) (shaB : List Nat → String) :
    List Block → List Nat → Except ReadErr (List Nat)
  | [], file_data => Except.ok file_data
  | b :: rest, file_data =>
    match get b.ipfs_hash with
    | none => Except.error ReadErr.fetchFailed
    | some chunk_data =>
      if verify_chunk shaB chunk_data b.chunk_hash then
        read_loop get shaB rest (file_data ++ chunk_data)
      else
        Except.error ReadErr.hashMismatch

/-- The body of the `try` block of `BlockchainFUSE.read`: gather the file's
blocks (empty ⇒ not found), sort by index, run tamper detection, then fetch,
verify and concatenate every chunk, finally returning the slice
`file_data[offset : offset + size]`. -/
def read_body (sha : String → String) (shaB : List Nat → String)
    (get : String → Option (List Nat)) (chain : List Block)
    (filename : String) (offset size : Nat) : Except ReadErr (List Nat) :=
  let file_blocks := get_file_blocks chain filename
  if file_blocks.isEmpty then Except.error ReadErr.notFound
  else
    let sorted_blocks := sortByIndex file_blocks
    if (detect_tampering sha chain filename).isEmpty then
      match read_loop get shaB sorted_blocks [] with
      | Except.error e => Except.error e
      | Except.ok file_data => Except.ok ((file_data.drop offset).take size)
    else Except.error ReadErr.tampered

/-- `BlockchainFUSE.read` as seen by the caller: the surrounding
`except Exception` clause catches every exception the body raises —
including the body's own `FuseOSError(errno.ENOENT)` — and re-raises
`FuseOSError(errno.EIO)`. -/
def read (sha : String → String) (shaB : List Nat → String)
    (get : String → Option (List Nat)) (chain : List Block)
    (filename : String) (offset size : Nat) : Except FuseErr (List Nat) :=
  match read_body sha shaB get chain filename offset size with
  | Except.ok d => Except.ok d
  | Except.error _ => Except.error FuseErr.EIO

/-- The per-chunk hash/upload/append loop of `BlockchainFUSE.write`
(main.py:160-172).  `put` models `ipfs_client.upload_chunk` (`none` =
failure), `ts k` the timestamp of the `k`-th append.  The chain is threaded
through so that blocks appended before a failure survive it, exactly as the
mutated global chain does in the Python code. -/
def write_chunks (sha : String → String) (shaB : List Nat → String)
    (put : List Nat → Option String) (ts : Nat → String) (filename : String) :
    List (List Nat) → Nat → List Block → List Block × Option WriteErr
  | [], _, chain => (chain, none)
  | chunk :: rest, k, chain =>
    match put chunk with
    | none => (chain, some WriteErr.storeFailure)
    | some ipfs_hash =>
      match add_block sha chain filename chunk.length (shaB chunk) ipfs_hash (ts k) with
      | none => (chain, some WriteErr.chainFailure)
      | some (chain', _) => write_chunks sha shaB put ts filename rest (k + 1) chain'

/-- The body of the `try` block of `BlockchainFUSE.write`: reject non-zero
offsets, split the data into `CHUNK_SIZE` chunks, and hash/upload/append
each chunk in order.  Returns the final chain together with the byte count
on success or the aborting error. -/
def write_body (sha : String → String) (shaB : List Nat → String)
    (put : List Nat → Option String) (ts : Nat → String) (chain : List Block)
    (filename : String) (data : List Nat) (offset : Nat) :
    List Block × Except WriteErr Nat :=
  if offset ≠ 0 then (chain, Except.error WriteErr.notSupported)
  else
    match write_chunks sha shaB put ts filename (splitChunks CHUNK_SIZE data) 0 chain with
    | (chain', none) => (chain', Except.ok data.length)
    | (chain', some e) => (chain', Except.error e)

/-- `BlockchainFUSE.write` as seen by the caller: the `except Exception`
clause maps every body failure — including the body's own
`FuseOSError(errno.ENOSYS)` — to `FuseOSError(errno.EIO)`. -/
def write (sha : String → String) (shaB : List Nat → String)
    (put : List Nat → Option String) (ts : Nat → String) (chain : List Block)
    (filename : String) (data : List Nat) (offset : Nat) :
    List Block × Except FuseErr Nat :=
  match write_body sha shaB put ts chain filename data offset with
  | (chain', Except.ok n) => (chain', Except.ok n)
  | (chain', Except.error _) => (chain', Except.error FuseErr.EIO)

/-! ## Concrete test fixtures

Small concrete instantiations of the abstract digest/store parameters, used
to evaluate the embedded operations on explicit inputs.  `shaZ` is a digest
whose outputs always meet the difficulty-3 proof-of-work target, keeping the
nonce search at its first iteration. -/

/-- Toy digest for block hashing: constant `"000"`. -/
def shaZ : String → String := fun _ => "000"

/-- Toy digest for chunk bytes: constant `"X"`. -/
def shaBX : List Nat → String := fun _ => "X"

/-- A concrete genesis block shaped as `create_genesis_block` builds it,
with its `hash` field consistent with `shaZ`. -/
def genesisB : Block :=
  { index := 0, timestamp := "t0", filename := "GENESIS", file_size := 0,
    chunk_hash := String.mk (List.replicate 64 '0'), ipfs_hash := "",
    previous_hash := String.mk (List.replicate 64 '0'), nonce := 0,
    hash := "000" }

/-- A concrete non-genesis block for the file `"f"`, self-consistent under
`shaZ` but whose stored chunk hash `"Y"` differs from the `shaBX` digest of
any chunk bytes. -/
def fileB : Block :=
  { index := 1, timestamp := "t1", filename := "f", file_size := 1,
    chunk_hash := "Y", ipfs_hash := "addr", previous_hash := "000",
    nonce := 0, hash := "000" }

/-! ## Helper lemmas -/

/-- The hashed concatenation ignores the `hash` field. -/
theorem block_string_set_hash (b : Block) (h : String) :
    block_string { b with hash := h } = block_string b := rfl

/-- Recomputing the hash ignores the stored `hash` field. -/
theorem calculate_hash_set_hash (sha : String → String) (b : Block) (h : String) :
    calculate_hash sha { b with hash := h } = calculate_hash sha b := rfl

theorem joinChunks_nil : joinChunks [] = [] := rfl

theorem foldl_append_init (cs : List (List Nat)) (a : List Nat) :
    cs.foldl (fun acc c => acc ++ c) a = a ++ cs.foldl (fun acc c => acc ++ c) [] := by
  induction cs generalizing a with
  | nil => simp
  | cons c cs ih =>
    rw [List.foldl_cons, List.foldl_cons, ih (a ++ c), ih ([] ++ c)]
    simp

theorem joinChunks_cons (c : List Nat) (cs : List (List Nat)) :
    joinChunks (c :: cs) = c ++ joinChunks cs := by
  show (c :: cs).foldl _ [] = _
  rw [List.foldl_cons, foldl_append_init]
  simp [joinChunks]

theorem getLast?_cons_of_ne {α : Type} (x : α) (l : List α) (h : l ≠ []) :
    (x :: l).getLast? = l.getLast? := by
  match l with
  | [] => exact absurd rfl h
  | b :: l => exact List.getLast?_cons_cons

theorem splitGo_join (n : Nat) (hn : 0 < n) :
    ∀ fuel data, data.length ≤ fuel → joinChunks (splitGo n fuel data) = data := by
  intro fuel
  induction fuel with
  | zero =>
    intro data hlen
    have : data = [] := List.length_eq_zero.mp (Nat.le_zero.mp hlen)
    subst this
    rfl
  | succ fuel ih =>
    intro data hlen
    match data with
    | [] => rfl
    | a :: rest =>
      rw [splitGo, joinChunks_cons, ih ((a :: rest).drop n) ?_, List.take_append_drop]
      have h1 : (a :: rest).length ≤ fuel + 1 := hlen
      have h2 : ((a :: rest).drop n).length = (a :: rest).length - n := List.length_drop n _
      omega

/-- Reassembling the chunks of a positive chunk size gives back the data. -/
theorem join_splitChunks (n : Nat) (hn : 0 < n) (data : List Nat) :
    joinChunks (splitChunks n data) = data := by
  rw [splitChunks, if_neg (Nat.pos_iff_ne_zero.mp hn)]
  exact splitGo_join n hn data.length data (Nat.le_refl _)

theorem splitGo_lengths (n : Nat) (hn : 0 < n) :
    ∀ fuel data, data.length ≤ fuel →
      (∀ c ∈ (splitGo n fuel data).dropLast, c.length = n) ∧
      (∀ c, (splitGo n fuel data).getLast? = some c →
        c.length = if data.length % n = 0 then n else data.length % n) := by
  intro fuel
  induction fuel with
  | zero =>
    intro data hlen
    have : data = [] := List.length_eq_zero.mp (Nat.le_zero.mp hlen)
    subst this
    exact ⟨by intro c hc; simp [splitGo] at hc, by intro c hc; simp [splitGo] at hc⟩
  | succ fuel ih =>
    intro data hlen
    match data with
    | [] => exact ⟨by intro c hc; simp [splitGo] at hc, by intro c hc; simp [splitGo] at hc⟩
    | a :: rest =>
      rw [splitGo]
      by_cases hle : (a :: rest).length ≤ n
      · have hdrop : (a :: rest).drop n = [] := by
          apply List.drop_eq_nil_of_le
          exact hle
        have htake : (a :: rest).take n = a :: rest := List.take_of_length_le hle
        rw [hdrop]
        have hg0 : splitGo n fuel [] = [] := by
          cases fuel <;> rfl
        rw [hg0]
        constructor
        · intro c hc
          simp [List.dropLast] at hc
        · intro c hc
          simp [List.getLast?] at hc
          subst hc
          rw [htake]
          have hlen1 : 0 < (a :: rest).length := by simp
          rcases Nat.lt_or_ge (a :: rest).length n with hlt | hge
          · rw [if_neg]
            · exact (Nat.mod_eq_of_lt hlt).symm
            · rw [Nat.mod_eq_of_lt hlt]
              omega
          · have : (a :: rest).length = n := Nat.le_antisymm hle hge
            rw [this, Nat.mod_self, if_pos rfl]
      · push_neg at hle
        have hdlen : ((a :: rest).drop n).length = (a :: rest).length - n :=
          List.length_drop n _
        have hdne : (a :: rest).drop n ≠ [] := by
          intro h
          have h0 : ((a :: rest).drop n).length = 0 := by rw [h]; rfl
          rw [hdlen] at h0
          omega
        have hfuel : ((a :: rest).drop n).length ≤ fuel := by
          have : (a :: rest).length ≤ fuel + 1 := hlen
          omega
        obtain ⟨ih1, ih2⟩ := ih ((a :: rest).drop n) hfuel
        have hgne : splitGo n fuel ((a :: rest).drop n) ≠ [] := by
          intro h
          have := splitGo_join n hn fuel ((a :: rest).drop n) hfuel
          rw [h] at this
          exact hdne (this ▸ rfl)
        constructor
        · intro c hc
          rw [List.dropLast_cons_of_ne_nil hgne] at hc
          rcases List.mem_cons.mp hc with h | h
          · subst h
            rw [List.length_take]
            omega
          · exact ih1 c h
        · intro c hc
          rw [getLast?_cons_of_ne _ _ hgne] at hc
          have := ih2 c hc
          rw [hdlen] at this
          rw [← Nat.mod_eq_sub_mod (Nat.le_of_lt hle)] at this
          exact this

/-- Chunk lengths of the split: every chunk before the last has length `n`,
and the last has length `n` when `n` divides the data length and
`data.length % n` otherwise. -/
theorem splitChunks_lengths (n : Nat) (hn : 0 < n) (data : List Nat) :
    (∀ c ∈ (splitChunks n data).dropLast, c.length = n) ∧
    (∀ c, (splitChunks n data).getLast? = some c →
      c.length = if data.length % n = 0 then n else data.length % n) := by
  rw [splitChunks, if_neg (Nat.pos_iff_ne_zero.mp hn)]
  exact splitGo_lengths n hn data.length data (Nat.le_refl _)

theorem splitChunks_ne_nil (n : Nat) (hn : 0 < n) (data : List Nat) (hd : data ≠ []) :
    splitChunks n data ≠ [] := by
  intro h
  have := join_splitChunks n hn data
  rw [h] at this
  exact hd (this ▸ rfl)

theorem mem_insertByIndex (a b : Block) (l : List Block) :
    a ∈ insertByIndex b l ↔ a = b ∨ a ∈ l := by
  induction l with
  | nil => simp [insertByIndex]
  | cons x rest ih =>
    rw [insertByIndex]
    by_cases h : b.index ≤ x.index
    · simp [h]
    · simp only [if_neg h, List.mem_cons, ih]
      tauto

theorem mem_sortByIndex (a : Block) (l : List Block) :
    a ∈ sortByIndex l ↔ a ∈ l := by
  induction l with
  | nil => simp [sortByIndex]
  | cons x rest ih =>
    show a ∈ insertByIndex x (sortByIndex rest) ↔ _
    rw [mem_insertByIndex, ih]
    simp

theorem insertByIndex_of_le (b : Block) (l : List Block)
    (h : ∀ a ∈ l, b.index ≤ a.index) : insertByIndex b l = b :: l := by
  match l with
  | [] => rfl
  | x :: rest =>
    rw [insertByIndex, if_pos (h x (List.mem_cons_self x rest))]

theorem sortByIndex_of_pairwise (l : List Block)
    (h : l.Pairwise (fun a b => a.index ≤ b.index)) : sortByIndex l = l := by
  induction l with
  | nil => rfl
  | cons x rest ih =>
    rw [List.pairwise_cons] at h
    show insertByIndex x (sortByIndex rest) = x :: rest
    rw [ih h.2, insertByIndex_of_le x rest h.1]

theorem pow_loop_none (p : Nat → Bool) :
    ∀ fuel start, (∀ m, start ≤ m → m < start + fuel → p m = false) →
      pow_loop p fuel start = none := by
  intro fuel
  induction fuel with
  | zero => intro start _; rfl
  | succ fuel ih =>
    intro start h
    rw [pow_loop, if_neg]
    · exact ih (start + 1) (fun m h1 h2 => h m (by omega) (by omega))
    · rw [h start (Nat.le_refl _) (by omega)]
      simp

theorem pow_loop_first (p : Nat → Bool) :
    ∀ fuel start n, start ≤ n → n < start + fuel → p n = true →
      (∀ m, start ≤ m → m < n → p m = false) →
      pow_loop p fuel start = some n := by
  intro fuel
  induction fuel with
  | zero => intro start n h1 h2; omega
  | succ fuel ih =>
    intro start n h1 h2 hp hmin
    rw [pow_loop]
    rcases Nat.eq_or_lt_of_le h1 with heq | hlt
    · subst heq
      rw [if_pos hp]
    · rw [if_neg]
      · exact ih (start + 1) n (by omega) (by omega) hp
          (fun m hm1 hm2 => hmin m (by omega) hm2)
      · rw [hmin start (Nat.le_refl _) hlt]
        simp

theorem getD_append_lt (l l2 : List Block) (i : Nat) (d : Block) (h : i < l.length) :
    (l ++ l2).getD i d = l.getD i d := by
  rw [List.getD_eq_getElem?_getD, List.getD_eq_getElem?_getD, List.getElem?_append, if_pos h]

theorem getD_append_ge (l l2 : List Block) (i : Nat) (d : Block) (h : l.length ≤ i) :
    (l ++ l2).getD i d = l2.getD (i - l.length) d := by
  rw [List.getD_eq_getElem?_getD, List.getD_eq_getElem?_getD, List.getElem?_append,
    if_neg (by omega)]

theorem getD_cons_zero (b : Block) (l : List Block) (d : Block) :
    (b :: l).getD 0 d = b := rfl

theorem getD_cons_succ (b : Block) (l : List Block) (i : Nat) (d : Block) :
    (b :: l).getD (i + 1) d = l.getD i d := rfl

/-- The download/verify loop aborts with the hash-mismatch error as soon as
the store returns bytes whose digest differs from the stored chunk hash,
provided every earlier download succeeds. -/
theorem read_loop_mismatch (get : String → Option (List Nat)) (shaB : List Nat → String) :
    ∀ (blocks : List Block) (acc : List Nat),
      (∀ b ∈ blocks, (get b.ipfs_hash).isSome = true) →
      (∃ b ∈ blocks, ∃ d, get b.ipfs_hash = some d ∧ shaB d ≠ b.chunk_hash) →
      read_loop get shaB blocks acc = Except.error ReadErr.hashMismatch := by
  intro blocks
  induction blocks with
  | nil =>
    intro acc _ hbad
    simp at hbad
  | cons b rest ih =>
    intro acc hfetch hbad
    obtain ⟨d, hd⟩ := Option.isSome_iff_exists.mp (hfetch b (List.mem_cons_self b rest))
    simp only [read_loop, hd]
    by_cases hv : verify_chunk shaB d b.chunk_hash = true
    · rw [if_pos hv]
      apply ih (acc ++ d) (fun x hx => hfetch x (List.mem_cons_of_mem b hx))
      obtain ⟨x, hx, dx, hdx, hne⟩ := hbad
      rcases List.mem_cons.mp hx with heq | hmem
      · exfalso
        apply hne
        rw [heq] at hdx
        rw [hd] at hdx
        injection hdx with hdd
        rw [heq, ← hdd]
        exact eq_of_beq hv
      · exact ⟨x, hmem, dx, hdx, hne⟩
    · rw [if_neg hv]

theorem getLast_eq_getD (l : List Block) (h : l ≠ []) :
    l.getLast h = l.getD (l.length - 1) default := by
  have hlt : l.length - 1 < l.length := by
    have : 0 < l.length := List.length_pos.mpr h
    omega
  rw [List.getD_eq_getElem?_getD, List.getElem?_eq_getElem hlt]
  rw [List.getLast_eq_getElem]
  rfl

theorem all_eq_of_forall_eq {α : Type} (l : List α) (f g : α → Bool)
    (h : ∀ x ∈ l, f x = g x) : l.all f = l.all g := by
  induction l with
  | nil => rfl
  | cons a rest ih =>
    rw [List.all_cons, List.all_cons, h a (List.mem_cons_self a rest),
      ih (fun x hx => h x (List.mem_cons_of_mem a hx))]

/-- Characterisation of `add_block` on a non-empty chain: it returns the
chain extended by exactly one new block whose fields are built as in the
source, whose `previous_hash` is the old last block's hash, and whose stored
hash equals its own recomputation. -/
theorem add_block_eq (sha : String → String) (chain : List Block) (hne : chain ≠ [])
    (filename : String) (fsz : Nat) (chash ihash ts : String) :
    ∃ b, add_block sha chain filename fsz chash ihash ts = some (chain ++ [b], b) ∧
      b.index = chain.length ∧ b.timestamp = ts ∧ b.filename = filename ∧
      b.file_size = fsz ∧ b.chunk_hash = chash ∧ b.ipfs_hash = ihash ∧
      b.previous_hash = (chain.getLast hne).hash ∧
      b.hash = calculate_hash sha b := by
  have hlast : chain.getLast? = some (chain.getLast hne) :=
    List.getLast?_eq_getLast chain hne
  unfold add_block get_latest_block
  rw [hlast]
  refine ⟨_, rfl, rfl, rfl, rfl, rfl, rfl, rfl, rfl, ?_⟩
  exact (calculate_hash_set_hash sha _ _).symm

/-- Behaviour of the chunk-processing loop of `write` when every upload
succeeds and the store later returns exactly what was uploaded: the chain is
extended by one self-consistent block per chunk, carrying the written
filename, with consecutive indices continuing the chain, and the read-side
download/verify loop over those blocks reassembles the original chunks. -/
theorem write_chunks_ok (sha : String → String) (shaB : List Nat → String)
    (put : List Nat → Option String) (get : String → Option (List Nat))
    (ts : Nat → String) (filename : String) :
    ∀ (chunks : List (List Nat)) (k : Nat) (chain : List Block), chain ≠ [] →
      (∀ c ∈ chunks, ∃ a, put c = some a ∧ get a = some c) →
      ∃ ext, write_chunks sha shaB put ts filename chunks k chain = (chain ++ ext, none) ∧
        ext.length = chunks.length ∧
        (∀ b ∈ ext, b.filename = filename ∧ b.hash = calculate_hash sha b) ∧
        ext.map (fun b => b.index) = List.range' chain.length chunks.length ∧
        (∀ acc, read_loop get shaB ext acc = Except.ok (acc ++ joinChunks chunks)) := by
  intro chunks
  induction chunks with
  | nil =>
    intro k chain _ _
    refine ⟨[], ?_, rfl, ?_, rfl, ?_⟩
    · simp [write_chunks]
    · intro b hb
      simp at hb
    · intro acc
      simp [read_loop, joinChunks]
  | cons c rest ih =>
    intro k chain hne hstore
    obtain ⟨a, hput, hget⟩ := hstore c (List.mem_cons_self c rest)
    obtain ⟨b, hab, hbidx, hbts, hbfn, hbfs, hbch, hbih, hbph, hbh⟩ :=
      add_block_eq sha chain hne filename c.length (shaB c) a (ts k)
    have hne' : chain ++ [b] ≠ [] := by simp
    obtain ⟨ext', hwc, hlen, hprops, hmap, hloop⟩ :=
      ih (k + 1) (chain ++ [b]) hne'
        (fun x hx => hstore x (List.mem_cons_of_mem c hx))
    refine ⟨b :: ext', ?_, ?_, ?_, ?_, ?_⟩
    · simp only [write_chunks, hput, hab, hwc]
      simp
    · simp [hlen]
    · intro x hx
      rcases List.mem_cons.mp hx with heq | hmem
      · subst heq
        exact ⟨hbfn, hbh⟩
      · exact hprops x hmem
    · rw [List.map_cons, hmap, hbidx]
      simp only [List.length_append, List.length_cons, List.length_nil]
      rw [List.range'_succ]
    · intro acc
      have hv : verify_chunk shaB c b.chunk_hash = true := by
        rw [verify_chunk, hbch]
        simp
      simp only [read_loop, hbih, hget]
      rw [if_pos hv, hloop (acc ++ c), joinChunks_cons]
      simp

/-- Behaviour of the chunk-processing loop of `write` when the first failed
upload is for the chunk at position `k`: exactly the `k` blocks for the
earlier chunks have been appended, they survive the failure, and the loop
stops with the store-failure error. -/
theorem write_chunks_fail (sha : String → String) (shaB : List Nat → String)
    (put : List Nat → Option String) (ts : Nat → String) (filename : String) :
    ∀ (k : Nat) (chunks : List (List Nat)) (i : Nat) (chain : List Block), chain ≠ [] →
      k < chunks.length →
      (∀ j, j < k → (put (chunks.getD j [])).isSome = true) →
      put (chunks.getD k []) = none →
      ∃ ext, ext.length = k ∧
        write_chunks sha shaB put ts filename chunks i chain =
          (chain ++ ext, some WriteErr.storeFailure) := by
  intro k
  induction k with
  | zero =>
    intro chunks i chain hne hk _ hfail
    match chunks with
    | [] => simp at hk
    | c :: rest =>
      refine ⟨[], rfl, ?_⟩
      have hc : put c = none := hfail
      rw [write_chunks, hc]
      simp
  | succ k ih =>
    intro chunks i chain hne hk hok hfail
    match chunks with
    | [] => simp at hk
    | c :: rest =>
      have hputc : (put c).isSome = true := hok 0 (Nat.succ_pos k)
      obtain ⟨a, hput⟩ := Option.isSome_iff_exists.mp hputc
      obtain ⟨b, hab, _⟩ :=
        add_block_eq sha chain hne filename c.length (shaB c) a (ts i)
      have hne' : chain ++ [b] ≠ [] := by simp
      obtain ⟨ext', hlen, hwc⟩ :=
        ih rest (i + 1) (chain ++ [b]) hne'
          (by simpa using Nat.lt_of_succ_lt_succ hk)
          (fun j hj => hok (j + 1) (Nat.succ_lt_succ hj))
          hfail
      refine ⟨b :: ext', by simp [hlen], ?_⟩
      simp only [write_chunks, hput, hab, hwc]
      simp

/-! ## Claim theorems -/

/-- Claim C2: `validate_chain` returns true iff, for every position `i` of
the loop `for i in range(1, len(chain))`, the block's stored hash equals the
hash recomputed from its other fields, its `previous_hash` equals the hash
of the immediately preceding block, and its hash begins with `DIFFICULTY`
leading zero hex characters. -/
theorem validate_chain_iff (sha : String → String) (chain : List Block) :
    validate_chain sha DIFFICULTY chain = true ↔
      ∀ i, 1 ≤ i → i < chain.length →
        (chain.getD i default).hash = calculate_hash sha (chain.getD i default) ∧
        (chain.getD i default).previous_hash = (chain.getD (i - 1) default).hash ∧
        startswith (chain.getD i default).hash (target DIFFICULTY) = true := by
  rw [validate_chain, List.all_eq_true]
  constructor
  · intro h i h1 h2
    have hm : i ∈ List.range' 1 (chain.length - 1) :=
      List.mem_range'_1.mpr ⟨h1, by omega⟩
    have hc := h i hm
    simp only [check_at, Bool.and_eq_true, beq_iff_eq] at hc
    exact ⟨hc.1.1, hc.1.2, hc.2⟩
  · intro h x hx
    obtain ⟨h1, h2⟩ := List.mem_range'_1.mp hx
    have hc := h x h1 (by omega)
    simp only [check_at, Bool.and_eq_true, beq_iff_eq]
    exact ⟨⟨hc.1, hc.2.1⟩, hc.2.2⟩

/-- Witness for C2 at a concrete chain. -/
theorem validate_chain_iff_witness :
    validate_chain shaZ DIFFICULTY ([] : List Block) = true :=
  (validate_chain_iff shaZ []).mpr (by intro i h1 h2; simp at h2)

/-- Claim C4: splitting a byte string into chunks of positive size `n` gives
chunks all of length `n` except possibly the last (which is shorter exactly
when `n` does not divide the data length, in which case its length is the
remainder), and rejoining the chunks in order yields the data unchanged. -/
theorem split_join_spec (data : List Nat) (n : Nat) (hn : 0 < n) :
    joinChunks (splitChunks n data) = data ∧
    (∀ c ∈ (splitChunks n data).dropLast, c.length = n) ∧
    (∀ c, (splitChunks n data).getLast? = some c →
      c.length = if data.length % n = 0 then n else data.length % n) :=
  ⟨join_splitChunks n hn data, (splitChunks_lengths n hn data).1,
    (splitChunks_lengths n hn data).2⟩

/-- Witness for C4 at a concrete data/chunk-size pair. -/
theorem split_join_spec_witness :
    joinChunks (splitChunks 2 [1, 2, 3, 4, 5]) = [1, 2, 3, 4, 5] ∧
    (∀ c ∈ (splitChunks 2 [1, 2, 3, 4, 5]).dropLast, c.length = 2) ∧
    (∀ c, (splitChunks 2 [1, 2, 3, 4, 5]).getLast? = some c →
      c.length = if ([1, 2, 3, 4, 5] : List Nat).length % 2 = 0 then 2
        else ([1, 2, 3, 4, 5] : List Nat).length % 2) :=
  split_join_spec [1, 2, 3, 4, 5] 2 (by decide)

/-- Claim C5: `proof_of_work` with the configured `DIFFICULTY` and
`MAX_NONCE` depends only on the block's fields other than `nonce` and
`hash`; it returns the smallest nonce in `[0, MAX_NONCE)` whose recomputed
hash meets the difficulty target, and `0` when no nonce in the range
qualifies. -/
theorem proof_of_work_spec (sha : String → String) (b : Block) :
    (∀ b' : Block, b'.index = b.index → b'.timestamp = b.timestamp →
      b'.filename = b.filename → b'.file_size = b.file_size →
      b'.chunk_hash = b.chunk_hash → b'.ipfs_hash = b.ipfs_hash →
      b'.previous_hash = b.previous_hash →
      proof_of_work sha DIFFICULTY MAX_NONCE b' =
        proof_of_work sha DIFFICULTY MAX_NONCE b) ∧
    (∀ n, n < MAX_NONCE → powPred sha DIFFICULTY b n = true →
      (∀ m, m < n → powPred sha DIFFICULTY b m = false) →
      proof_of_work sha DIFFICULTY MAX_NONCE b = n) ∧
    ((∀ n, n < MAX_NONCE → powPred sha DIFFICULTY b n = false) →
      proof_of_work sha DIFFICULTY MAX_NONCE b = 0) := by
  refine ⟨?_, ?_, ?_⟩
  · intro b' h1 h2 h3 h4 h5 h6 h7
    have hp : powPred sha DIFFICULTY b' = powPred sha DIFFICULTY b := by
      funext n
      simp only [powPred, calculate_hash, block_string]
      rw [h1, h2, h3, h4, h5, h6, h7]
    rw [proof_of_work, proof_of_work, hp]
  · intro n hn hp hmin
    rw [proof_of_work,
      pow_loop_first (powPred sha DIFFICULTY b) MAX_NONCE 0 n (Nat.zero_le n)
        (by omega) hp (fun m _ hm2 => hmin m hm2)]
    rfl
  · intro h
    rw [proof_of_work,
      pow_loop_none (powPred sha DIFFICULTY b) MAX_NONCE 0
        (fun m _ hm2 => h m (by omega))]
    rfl

/-- Witness for C5: under the constant digest `shaZ` nonce `0` already meets
the target, so the mined nonce is `0`. -/
theorem proof_of_work_spec_witness :
    proof_of_work shaZ DIFFICULTY MAX_NONCE genesisB = 0 :=
  (proof_of_work_spec shaZ genesisB).2.1 0 (by decide) (by decide)
    (fun m hm => absurd hm (Nat.not_lt_zero m))

/-- Claim C7, counterexample: `get_file_blocks` does not exclude the genesis
block, so `get_file_blocks chain "GENESIS"` contains the genesis block
rather than being empty. -/
theorem get_file_blocks_genesis_included :
    get_file_blocks [genesisB] "GENESIS" = [genesisB] ∧
    genesisB.filename = "GENESIS" ∧
    get_file_blocks [genesisB] "GENESIS" ≠ [] := by
  refine ⟨rfl, rfl, ?_⟩
  intro h
  simp [get_file_blocks, genesisB] at h

/-- Claim C7, amended: `get_file_blocks` returns exactly the chain's blocks
whose filename equals the argument — genesis included when the argument is
`"GENESIS"` — as a sublist of the chain (so in chain order), which is
ascending index order whenever the chain's indices are strictly
increasing. -/
theorem get_file_blocks_spec (chain : List Block) (filename : String) :
    (∀ b, b ∈ get_file_blocks chain filename ↔ b ∈ chain ∧ b.filename = filename) ∧
    List.Sublist (get_file_blocks chain filename) chain ∧
    (chain.Pairwise (fun a b => a.index < b.index) →
      (get_file_blocks chain filename).Pairwise (fun a b => a.index < b.index)) := by
  refine ⟨?_, List.filter_sublist chain, ?_⟩
  · intro b
    rw [get_file_blocks, List.mem_filter, beq_iff_eq]
  · intro h
    exact h.filter _

/-- Witness for C7's amended ordering clause at a concrete chain. -/
theorem get_file_blocks_spec_witness :
    (get_file_blocks [genesisB, fileB] "f").Pairwise (fun a b => a.index < b.index) :=
  (get_file_blocks_spec [genesisB, fileB] "f").2.2 (by decide)

/-- Claim C9: on a chain satisfying the index and linkage invariants,
`add_block` appends exactly one block whose `index` is the old chain length
and whose `previous_hash` is the old last block's hash, whose stored hash
equals its own recomputation, and both invariants still hold afterwards. -/
theorem add_block_preserves_invariants (sha : String → String) (chain : List Block)
    (filename : String) (fsz : Nat) (chash ihash ts : String)
    (hne : chain ≠ [])
    (hidx : ∀ i, i < chain.length → (chain.getD i default).index = i)
    (hlink : ∀ i, 0 < i → i < chain.length →
      (chain.getD i default).previous_hash = (chain.getD (i - 1) default).hash) :
    ∃ b, add_block sha chain filename fsz chash ihash ts = some (chain ++ [b], b) ∧
      b.index = chain.length ∧
      b.previous_hash = (chain.getLast hne).hash ∧
      b.hash = calculate_hash sha b ∧
      (∀ i, i < (chain ++ [b]).length → ((chain ++ [b]).getD i default).index = i) ∧
      (∀ i, 0 < i → i < (chain ++ [b]).length →
        ((chain ++ [b]).getD i default).previous_hash =
          ((chain ++ [b]).getD (i - 1) default).hash) := by
  obtain ⟨b, hab, hbidx, _, _, _, _, _, hbph, hbh⟩ :=
    add_block_eq sha chain hne filename fsz chash ihash ts
  have hlen0 : 0 < chain.length := List.length_pos.mpr hne
  refine ⟨b, hab, hbidx, hbph, hbh, ?_, ?_⟩
  · intro i hi
    rw [List.length_append, List.length_cons, List.length_nil] at hi
    rcases Nat.lt_or_ge i chain.length with hlt | hge
    · rw [getD_append_lt _ _ _ _ hlt]
      exact hidx i hlt
    · have hieq : i = chain.length := by omega
      subst hieq
      rw [getD_append_ge _ _ _ _ (Nat.le_refl _), Nat.sub_self, getD_cons_zero]
      exact hbidx
  · intro i hpos hi
    rw [List.length_append, List.length_cons, List.length_nil] at hi
    rcases Nat.lt_or_ge i chain.length with hlt | hge
    · rw [getD_append_lt _ _ _ _ hlt, getD_append_lt _ _ _ _ (by omega)]
      exact hlink i hpos hlt
    · have hieq : i = chain.length := by omega
      subst hieq
      rw [getD_append_ge _ _ _ _ (Nat.le_refl _), Nat.sub_self, getD_cons_zero,
        getD_append_lt _ _ _ _ (by omega), hbph, getLast_eq_getD chain hne]

/-- Witness for C9 on a concrete one-block chain. -/
theorem add_block_preserves_invariants_witness :
    ∃ b, add_block shaZ [genesisB] "f" 1 "ch" "ad" "t1" = some ([genesisB] ++ [b], b) ∧
      b.index = [genesisB].length ∧
      b.previous_hash = ([genesisB].getLast (by simp)).hash ∧
      b.hash = calculate_hash shaZ b ∧
      (∀ i, i < ([genesisB] ++ [b]).length → (([genesisB] ++ [b]).getD i default).index = i) ∧
      (∀ i, 0 < i → i < ([genesisB] ++ [b]).length →
        (([genesisB] ++ [b]).getD i default).previous_hash =
          (([genesisB] ++ [b]).getD (i - 1) default).hash) :=
  add_block_preserves_invariants shaZ [genesisB] "f" 1 "ch" "ad" "t1" (by simp)
    (by decide) (by intro i h1 h2; simp at h2; exact absurd h1 (by omega))

/-- Claim C10: `validate_chain` never inspects the genesis block's contents
except through its `hash` field (used by the linkage check at position 1):
replacing the genesis block by any block with the same stored hash — all
other fields arbitrary — leaves the validation verdict unchanged. -/
theorem validate_chain_ignores_genesis_fields (sha : String → String)
    (b0 b0' : Block) (rest : List Block) (hh : b0'.hash = b0.hash) :
    validate_chain sha DIFFICULTY (b0' :: rest) =
      validate_chain sha DIFFICULTY (b0 :: rest) := by
  rw [validate_chain, validate_chain]
  simp only [List.length_cons, Nat.add_sub_cancel]
  apply all_eq_of_forall_eq
  intro i hi
  obtain ⟨h1, _⟩ := List.mem_range'_1.mp hi
  obtain ⟨j, rfl⟩ : ∃ j, i = j + 1 := ⟨i - 1, by omega⟩
  simp only [check_at, getD_cons_succ, Nat.add_sub_cancel]
  cases j with
  | zero =>
    simp only [getD_cons_zero]
    rw [hh]
  | succ k =>
    simp only [getD_cons_succ]

/-- Witness for C10: swapping the genesis block for a block with equal hash
but different filename, timestamp and other fields leaves validation
unchanged. -/
theorem validate_chain_ignores_genesis_fields_witness :
    validate_chain shaZ DIFFICULTY [fileB] = validate_chain shaZ DIFFICULTY [genesisB] :=
  validate_chain_ignores_genesis_fields shaZ genesisB fileB [] rfl

/-- Claim C1: when the chain itself is untampered and every chunk download
succeeds, but the store returns for some block bytes whose digest differs
from that block's stored `chunk_hash`, the read aborts at the
chunk-integrity check (the spec's `HashMismatch`, raised at main.py:127)
and the caller receives an error — never the corrupted bytes nor any
partial reconstruction. -/
theorem read_corrupted_chunk_hash_mismatch (sha : String → String)
    (shaB : List Nat → String) (get : String → Option (List Nat))
    (chain : List Block) (filename : String) (offset size : Nat)
    (hclean : detect_tampering sha chain filename = [])
    (hfetch : ∀ b ∈ get_file_blocks chain filename, (get b.ipfs_hash).isSome = true)
    (hbad : ∃ b ∈ get_file_blocks chain filename,
      ∃ d, get b.ipfs_hash = some d ∧ shaB d ≠ b.chunk_hash) :
    read_body sha shaB get chain filename offset size =
      Except.error ReadErr.hashMismatch ∧
    read sha shaB get chain filename offset size = Except.error FuseErr.EIO := by
  obtain ⟨w, hw, hrest⟩ := hbad
  have hne : get_file_blocks chain filename ≠ [] := List.ne_nil_of_mem hw
  have hie : (get_file_blocks chain filename).isEmpty = false :=
    List.isEmpty_eq_false.mpr hne
  have hloop : read_loop get shaB (sortByIndex (get_file_blocks chain filename)) [] =
      Except.error ReadErr.hashMismatch := by
    apply read_loop_mismatch
    · intro b hb
      exact hfetch b ((mem_sortByIndex b _).mp hb)
    · exact ⟨w, (mem_sortByIndex w _).mpr hw, hrest⟩
  have hbody : read_body sha shaB get chain filename offset size =
      Except.error ReadErr.hashMismatch := by
    simp only [read_body, hie, hclean, hloop, List.isEmpty_nil, Bool.false_eq_true,
      if_false, if_true]
  exact ⟨hbody, by simp only [read, hbody]⟩

/-- Witness for C1 on a concrete chain whose single file block stores chunk
hash `"Y"` while the store returns bytes hashing to `"X"`. -/
theorem read_corrupted_chunk_hash_mismatch_witness :
    read_body shaZ shaBX (fun _ => some [9]) [genesisB, fileB] "f" 0 1 =
      Except.error ReadErr.hashMismatch ∧
    read shaZ shaBX (fun _ => some [9]) [genesisB, fileB] "f" 0 1 =
      Except.error FuseErr.EIO :=
  read_corrupted_chunk_hash_mismatch shaZ shaBX (fun _ => some [9])
    [genesisB, fileB] "f" 0 1 (by decide) (fun b _ => rfl)
    ⟨fileB, by decide, [9], rfl, by decide⟩

/-- Claim C3, counterexample: for empty data the claim fails — the write
appends no blocks and succeeds, and the immediately following read of the
same filename fails (the missing-file error mapped to `EIO`) instead of
returning the empty byte string. -/
theorem roundtrip_empty_data_fails :
    write_body shaZ shaBX (fun _ => some "addr") (fun _ => "t1") [genesisB] "f" [] 0 =
      ([genesisB], Except.ok 0) ∧
    read shaZ shaBX (fun _ => some ([] : List Nat)) [genesisB] "f" 0 0 =
      Except.error FuseErr.EIO ∧
    Except.error FuseErr.EIO ≠ (Except.ok ([] : List Nat) : Except FuseErr (List Nat)) := by
  refine ⟨rfl, rfl, ?_⟩
  intro h
  exact Except.noConfusion h

/-- Claim C3, amended: for non-empty data written to a filename with no
prior blocks on a non-empty chain, with every chunk upload succeeding and
the store returning exactly what was stored, write-then-read returns the
data unchanged. -/
theorem write_then_read_roundtrip (sha : String → String) (shaB : List Nat → String)
    (put : List Nat → Option String) (get : String → Option (List Nat))
    (ts : Nat → String) (chain : List Block) (filename : String) (data : List Nat)
    (hchain : chain ≠ [])
    (hfresh : get_file_blocks chain filename = [])
    (hdata : data ≠ [])
    (hstore : ∀ c ∈ splitChunks CHUNK_SIZE data, ∃ a, put c = some a ∧ get a = some c) :
    ∃ chain', write_body sha shaB put ts chain filename data 0 =
        (chain', Except.ok data.length) ∧
      read sha shaB get chain' filename 0 data.length = Except.ok data := by
  obtain ⟨ext, hwc, hlen, hprops, hmap, hloop⟩ :=
    write_chunks_ok sha shaB put get ts filename (splitChunks CHUNK_SIZE data) 0
      chain hchain hstore
  have hcs : 0 < CHUNK_SIZE := by decide
  refine ⟨chain ++ ext, ?_, ?_⟩
  · simp only [write_body]
    rw [if_neg (by simp), hwc]
  · have hext_ne : ext ≠ [] := by
      intro h
      rw [h] at hlen
      exact splitChunks_ne_nil CHUNK_SIZE hcs data hdata
        (List.length_eq_zero.mp hlen.symm)
    have hgfb : get_file_blocks (chain ++ ext) filename = ext := by
      rw [get_file_blocks, List.filter_append]
      have h1 : chain.filter (fun b => b.filename == filename) = [] := hfresh
      rw [h1, List.nil_append]
      apply List.filter_eq_self.mpr
      intro b hb
      exact beq_iff_eq.mpr (hprops b hb).1
    have hsorted : sortByIndex ext = ext := by
      apply sortByIndex_of_pairwise
      have hplt := List.pairwise_lt_range' chain.length (splitChunks CHUNK_SIZE data).length
      rw [← hmap, List.pairwise_map] at hplt
      exact hplt.imp Nat.le_of_lt
    have htamper : detect_tampering sha (chain ++ ext) filename = [] := by
      rw [detect_tampering, hgfb]
      have hfil : ext.filter (fun b => !(b.hash == calculate_hash sha b)) = [] := by
        rw [List.filter_eq_nil_iff]
        intro b hb
        simp [(hprops b hb).2]
      rw [hfil, List.map_nil]
    have hie : ext.isEmpty = false := List.isEmpty_eq_false.mpr hext_ne
    have hjoin : joinChunks (splitChunks CHUNK_SIZE data) = data :=
      join_splitChunks CHUNK_SIZE hcs data
    have hrl : read_loop get shaB ext [] = Except.ok data := by
      rw [hloop [], List.nil_append, hjoin]
    have hbody : read_body sha shaB get (chain ++ ext) filename 0 data.length =
        Except.ok data := by
      simp only [read_body, hgfb, hie, hsorted, htamper, hrl, List.isEmpty_nil,
        Bool.false_eq_true, if_false, if_true]
      rw [List.drop_zero, List.take_length]
    simp only [read, hbody]

/-- Witness for C3's amended round trip on a one-byte file over a concrete
store. -/
theorem write_then_read_roundtrip_witness :
    ∃ chain', write_body shaZ shaBX (fun _ => some "addr") (fun _ => "t1")
        [genesisB] "f" [5] 0 = (chain', Except.ok ([5] : List Nat).length) ∧
      read shaZ shaBX (fun _ => some [5]) chain' "f" 0 ([5] : List Nat).length =
        Except.ok [5] :=
  write_then_read_roundtrip shaZ shaBX (fun _ => some "addr") (fun _ => some [5])
    (fun _ => "t1") [genesisB] "f" [5] (by simp) rfl (by simp)
    (fun c hc => ⟨"addr", rfl, by
      have he : splitChunks CHUNK_SIZE [5] = [[5]] := rfl
      rw [he] at hc
      have h5 : c = [5] := by simpa using hc
      rw [h5]⟩)

/-- Claim C6: reading a filename with no blocks on the chain hits the
missing-file branch (the explicit `FuseOSError(errno.ENOENT)` raised at
main.py:102), but the surrounding `except Exception` clause catches that
exception and re-raises `FuseOSError(errno.EIO)`, so the caller observes
`EIO`, not `ENOENT`. -/
theorem read_missing_file_eio :
    read_body shaZ shaBX (fun _ => none) [genesisB] "missing" 0 10 =
      Except.error ReadErr.notFound ∧
    read shaZ shaBX (fun _ => none) [genesisB] "missing" 0 10 =
      Except.error FuseErr.EIO ∧
    Except.error FuseErr.EIO ≠
      (Except.error FuseErr.ENOENT : Except FuseErr (List Nat)) := by
  refine ⟨rfl, rfl, ?_⟩
  intro h
  injection h with h1
  exact FuseErr.noConfusion h1

/-- Claim C8: when the upload of the chunk at position `k` is the first to
fail, the write aborts with the store-failure error (surfaced as `EIO` by
the adapter), the blocks appended for chunks `0..k-1` remain on the chain
unchanged — the old chain is a prefix of the final one — and no block is
appended for chunk `k` or any later chunk. -/
theorem write_upload_failure_partial (sha : String → String) (shaB : List Nat → String)
    (put : List Nat → Option String) (ts : Nat → String) (chain : List Block)
    (filename : String) (data : List Nat) (k : Nat)
    (hchain : chain ≠ [])
    (hk : k < (splitChunks CHUNK_SIZE data).length)
    (hok : ∀ j, j < k → (put ((splitChunks CHUNK_SIZE data).getD j [])).isSome = true)
    (hfail : put ((splitChunks CHUNK_SIZE data).getD k []) = none) :
    ∃ ext, ext.length = k ∧
      write_body sha shaB put ts chain filename data 0 =
        (chain ++ ext, Except.error WriteErr.storeFailure) ∧
      write sha shaB put ts chain filename data 0 =
        (chain ++ ext, Except.error FuseErr.EIO) := by
  obtain ⟨ext, hlen, hwc⟩ :=
    write_chunks_fail sha shaB put ts filename k (splitChunks CHUNK_SIZE data) 0
      chain hchain hk hok hfail
  have hbody : write_body sha shaB put ts chain filename data 0 =
      (chain ++ ext, Except.error WriteErr.storeFailure) := by
    simp only [write_body]
    rw [if_neg (by simp), hwc]
  exact ⟨ext, hlen, hbody, by simp only [write, hbody]⟩

/-- Witness for C8 with a store whose first upload already fails. -/
theorem write_upload_failure_partial_witness :
    ∃ ext, List.length ext = 0 ∧
      write_body shaZ shaBX (fun _ => none) (fun _ => "t1") [genesisB] "f" [5] 0 =
        ([genesisB] ++ ext, Except.error WriteErr.storeFailure) ∧
      write shaZ shaBX (fun _ => none) (fun _ => "t1") [genesisB] "f" [5] 0 =
        ([genesisB] ++ ext, Except.error FuseErr.EIO) :=
  write_upload_failure_partial shaZ shaBX (fun _ => none) (fun _ => "t1")
    [genesisB] "f" [5] 0 (by simp) (by decide)
    (fun j hj => absurd hj (Nat.not_lt_zero j)) rfl

end MyFuse
